import Mathlib

/-!
A shallow embedding of `mindmap_to_md.py`, the conversion engine of the
MindManager-to-Markdown repository, together with theorems settling the
frozen claims about it.

Modelling conventions:
* XML elements (`xml.etree.ElementTree.Element`) are modelled by `Elem`:
  a local tag name (the source matches namespace-agnostically with `{*}`,
  so only local names matter), an attribute association list, the direct
  text (`.text`, the text before the first child), and the child list in
  document order.
* Python strings are Lean `String`s; `str.strip()` is `pyStrip` (drop
  leading and trailing whitespace); Python truthiness of an optional
  string is `truthy`.
* Python floats are modelled exactly: scalar arithmetic is over `ℚ`
  (`PyFloat.finite`), with `PyFloat.inf`/`PyFloat.nan` for the
  non-finite values that `float(...)` can produce.
* Python's stable `sorted` is modelled by `List.insertionSort`, which is
  stable by construction, hence extensionally equal to any stable sort.
* Python dicts with provably distinct keys are association lists queried
  with `List.lookup`.
-/

mutual

/-- An XML element: local tag name, attributes, direct text, children.
The children sit in `ElemList`, a cons-list of elements isomorphic to
`List Elem`; the mutual (rather than nested) inductive enables
structural recursion over the tree. -/
inductive Elem where
  | mk (tag : String) (attrs : List (String × String)) (text : Option String)
      (children : ElemList)

/-- A cons-list of elements (see `Elem`). -/
inductive ElemList where
  | nil
  | cons (head : Elem) (tail : ElemList)

end

def ElemList.toList : ElemList → List Elem
  | .nil => []
  | .cons c rest => c :: rest.toList

def ElemList.ofList : List Elem → ElemList
  | [] => .nil
  | c :: rest => .cons c (ofList rest)

/-- Build an element from an ordinary child list. -/
def elem (tag : String) (attrs : List (String × String)) (text : Option String)
    (children : List Elem) : Elem :=
  .mk tag attrs text (ElemList.ofList children)

def Elem.tag : Elem → String
  | .mk t _ _ _ => t

def Elem.attrs : Elem → List (String × String)
  | .mk _ a _ _ => a

def Elem.text : Elem → Option String
  | .mk _ _ x _ => x

def Elem.children : Elem → List Elem
  | .mk _ _ _ c => c.toList

mutual

/-- Number of nodes of the tree; used as fuel for the traversals. -/
def Elem.size : Elem → ℕ
  | .mk _ _ _ cs => 1 + cs.size

def ElemList.size : ElemList → ℕ
  | .nil => 0
  | .cons c rest => c.size + rest.size

end

theorem ElemList.size_of_mem_toList {c : Elem} :
    ∀ {l : ElemList}, c ∈ l.toList → c.size ≤ l.size
  | .nil, h => by simp [ElemList.toList] at h
  | .cons head tail, h => by
    simp only [ElemList.toList, List.mem_cons] at h
    rcases h with rfl | h
    · simp only [ElemList.size]; omega
    · have := ElemList.size_of_mem_toList h
      simp only [ElemList.size]
      omega

theorem Elem.one_le_size (e : Elem) : 1 ≤ e.size := by
  cases e with
  | mk t a x c => simp only [Elem.size]; omega

theorem Elem.size_lt_of_mem_children {c e : Elem} (h : c ∈ e.children) :
    c.size < e.size := by
  cases e with
  | mk t a x cs =>
    simp only [Elem.children] at h
    have := ElemList.size_of_mem_toList h
    simp only [Elem.size]
    omega

/-- Python `str.strip()`: remove leading and trailing whitespace. -/
def pyStrip (s : String) : String :=
  ⟨((s.data.dropWhile Char.isWhitespace).reverse.dropWhile Char.isWhitespace).reverse⟩

/-- Python truthiness of an `Optional[str]`: not `None` and non-empty. -/
def truthy : Option String → Bool
  | none => false
  | some s => s != ""

/-- `element.get(name)`: first attribute with the given name. -/
def getAttr (e : Elem) (name : String) : Option String :=
  (e.attrs.find? (fun p => p.1 == name)).map (·.2)

/-- `element.find("./{*}tag")`: first child with the given local tag. -/
def findChild (e : Elem) (tag : String) : Option Elem :=
  e.children.find? (fun c => c.tag == tag)

mutual

/-- All proper descendants of an element in document (preorder) order;
`element.iterfind(".//{*}tag")` is this list filtered by tag. -/
def descendants : Elem → List Elem
  | .mk _ _ _ cs => descendantsL cs

def descendantsL : ElemList → List Elem
  | .nil => []
  | .cons c rest => (c :: descendants c) ++ descendantsL rest

end

theorem descendantsL_eq :
    ∀ (l : ElemList),
      descendantsL l = (l.toList.map (fun c => c :: descendants c)).flatten
  | .nil => rfl
  | .cons c rest => by
    simp [descendantsL, ElemList.toList, descendantsL_eq rest]

/-- The recurrence of the preorder descendant traversal, phrased over
the ordinary child list. -/
theorem descendants_eq (e : Elem) :
    descendants e = (e.children.map (fun c => c :: descendants c)).flatten := by
  cases e with
  | mk t a x cs => simp [descendants, Elem.children, descendantsL_eq]

/-- Step 1 of `get_topic_text`: the `PlainText` attribute of the text
container.  The source tests Python truthiness of the *raw* attribute
(`if plain_attr:`) and returns it stripped. -/
def textStepAttr (textNode : Elem) : Option String :=
  match getAttr textNode "PlainText" with
  | some a => if a = "" then none else some (pyStrip a)
  | none => none

/-- Step 2 of `get_topic_text`: a nested `PlainText` element's own text,
again tested for truthiness unstripped and returned stripped. -/
def textStepPlainElem (textNode : Elem) : Option String :=
  match findChild textNode "PlainText" with
  | some pe =>
    match pe.text with
    | some s => if s = "" then none else some (pyStrip s)
    | none => none
  | none => none

/-- A rich-text fragment inside a paragraph (`inner.text`), kept when the
raw text is truthy and its stripped form is non-empty. -/
def fragmentText (inner : Elem) : Option String :=
  match inner.text with
  | some s => if s ≠ "" && pyStrip s ≠ "" then some (pyStrip s) else none
  | none => none

/-- One paragraph's contribution in step 3 of `get_topic_text`: the
stripped nested `Text` fragments joined by spaces, falling back to the
paragraph's direct text when no fragment qualifies. -/
def paragraphResult (p : Elem) : Option String :=
  let pieces0 := ((descendants p).filter (fun c => c.tag == "Text")).filterMap fragmentText
  let pieces :=
    if pieces0 = [] then
      match p.text with
      | some s => if s ≠ "" && pyStrip s ≠ "" then [pyStrip s] else []
      | none => []
    else pieces0
  if pieces = [] then none else some (String.intercalate " " pieces)

/-- The non-empty paragraph results of a text container, in order. -/
def paragraphResults (textNode : Elem) : List String :=
  (textNode.children.filter (fun c => c.tag == "Paragraph")).filterMap paragraphResult

/-- Step 3 of `get_topic_text`: paragraph-structured rich text. -/
def textStepParagraphs (textNode : Elem) : Option String :=
  let paragraphs := paragraphResults textNode
  if paragraphs = [] then none else some (String.intercalate "\n" paragraphs)

/-- Step 4 of `get_topic_text`: the text container's own direct text. -/
def textStepDirect (textNode : Elem) : Option String :=
  match textNode.text with
  | some s => if s ≠ "" && pyStrip s ≠ "" then some (pyStrip s) else none
  | none => none

/-- `get_topic_text`: extract readable text from a topic element via the
four-step chain over its `Text` child container. -/
def get_topic_text (topic : Elem) : Option String :=
  match findChild topic "Text" with
  | none => none
  | some textNode =>
    match textStepAttr textNode with
    | some r => some r
    | none =>
      match textStepPlainElem textNode with
      | some r => some r
      | none =>
        match textStepParagraphs textNode with
        | some r => some r
        | none => textStepDirect textNode

/-- `findall("./{*}container/{*}Topic")`: the `Topic` grandchildren that
sit inside children tagged `container`, in document order. -/
def topicsIn (t : Elem) (container : String) : List Elem :=
  ((t.children.filter (fun c => c.tag == container)).map
    (fun c => c.children.filter (fun g => g.tag == "Topic"))).flatten

/-- `iter_child_topics`: immediate child topics gathered from the four
container relations in the fixed canonical order. -/
def iter_child_topics (t : Elem) : List Elem :=
  topicsIn t "SubTopics" ++ topicsIn t "LeftTopicGroup" ++
    topicsIn t "RightTopicGroup" ++ topicsIn t "FloatingTopics"

theorem size_lt_of_mem_topicsIn {c t : Elem} {g : String}
    (h : c ∈ topicsIn t g) : c.size < t.size := by
  rcases List.mem_flatten.mp h with ⟨l, hl, hcl⟩
  rcases List.mem_map.mp hl with ⟨cont, hcont, rfl⟩
  have h1 : c ∈ cont.children := (List.mem_filter.mp hcl).1
  have h2 : cont ∈ t.children := (List.mem_filter.mp hcont).1
  exact lt_trans (Elem.size_lt_of_mem_children h1)
    (Elem.size_lt_of_mem_children h2)

theorem size_lt_of_mem_iter {c t : Elem} (h : c ∈ iter_child_topics t) :
    c.size < t.size := by
  unfold iter_child_topics at h
  rcases List.mem_append.mp h with h | h
  · rcases List.mem_append.mp h with h | h
    · rcases List.mem_append.mp h with h | h
      · exact size_lt_of_mem_topicsIn h
      · exact size_lt_of_mem_topicsIn h
    · exact size_lt_of_mem_topicsIn h
  · exact size_lt_of_mem_topicsIn h

/-- The Markdown heading line emitted by `walk_topic`:
`'#' * max(level, 1)` followed by a space and the text. -/
def headingLine (level : ℕ) (text : String) : String :=
  ⟨List.replicate (max level 1) '#'⟩ ++ " " ++ text

/-- The heading line a topic contributes to the outline (`if text:`). -/
def walkHead (topic : Elem) (level : ℕ) : List String :=
  match get_topic_text topic with
  | some s => if s = "" then [] else [headingLine level s]
  | none => []

/-- Fuelled outline renderer; one unit of fuel per tree level, so
`topic.size` always suffices (`walk_topic_eq`).  The fuel only makes the
recursion structural. -/
def walkF : ℕ → Elem → ℕ → List String
  | 0, _, _ => []
  | fuel + 1, topic, level =>
    walkHead topic level ++
      ((iter_child_topics topic).map (fun c => walkF fuel c (level + 1))).flatten

/-- `walk_topic`: the outline renderer.  Emits a heading line for each
topic with truthy text and recurses into the canonical children at
`level + 1`.  (The Python appends to a list; this returns the appended
lines.) -/
def walk_topic (topic : Elem) (level : ℕ) : List String :=
  walkF topic.size topic level

theorem walkF_congr (f₁ f₂ : ℕ) (topic : Elem) (level : ℕ)
    (h1 : topic.size ≤ f₁) (h2 : topic.size ≤ f₂) :
    walkF f₁ topic level = walkF f₂ topic level := by
  match f₁, f₂ with
  | 0, _ => exact absurd (le_trans (Elem.one_le_size topic) h1) (by omega)
  | _ + 1, 0 => exact absurd (le_trans (Elem.one_le_size topic) h2) (by omega)
  | g₁ + 1, g₂ + 1 =>
    simp only [walkF]
    have h3 : ∀ c ∈ iter_child_topics topic,
        walkF g₁ c (level + 1) = walkF g₂ c (level + 1) := by
      intro c hc
      have hlt := size_lt_of_mem_iter hc
      exact walkF_congr g₁ g₂ c (level + 1) (by omega) (by omega)
    rw [List.map_congr_left h3]
termination_by f₁

/-- The recurrence of the source's `walk_topic`. -/
theorem walk_topic_eq (topic : Elem) (level : ℕ) :
    walk_topic topic level =
      walkHead topic level ++
        ((iter_child_topics topic).map (fun c => walk_topic c (level + 1))).flatten := by
  unfold walk_topic
  rcases hs : topic.size with _ | n
  · exact absurd (hs ▸ Elem.one_le_size topic) (by omega)
  · simp only [walkF]
    have h3 : ∀ c ∈ iter_child_topics topic,
        walkF n c (level + 1) = walkF c.size c (level + 1) := by
      intro c hc
      have hlt := size_lt_of_mem_iter hc
      exact walkF_congr n c.size c (level + 1) (by omega) (by omega)
    rw [List.map_congr_left h3]

/-- Fuelled depth-first traversal, pairing each visited topic with its
depth. -/
def dfsF : ℕ → Elem → ℕ → List (Elem × ℕ)
  | 0, _, _ => []
  | fuel + 1, topic, depth =>
    (topic, depth) ::
      ((iter_child_topics topic).map (fun c => dfsF fuel c (depth + 1))).flatten

/-- The depth-first traversal of the topic tree in canonical child
order, pairing each visited topic with its depth. -/
def dfsTopics (topic : Elem) (depth : ℕ) : List (Elem × ℕ) :=
  dfsF topic.size topic depth

theorem dfsF_congr (f₁ f₂ : ℕ) (topic : Elem) (depth : ℕ)
    (h1 : topic.size ≤ f₁) (h2 : topic.size ≤ f₂) :
    dfsF f₁ topic depth = dfsF f₂ topic depth := by
  match f₁, f₂ with
  | 0, _ => exact absurd (le_trans (Elem.one_le_size topic) h1) (by omega)
  | _ + 1, 0 => exact absurd (le_trans (Elem.one_le_size topic) h2) (by omega)
  | g₁ + 1, g₂ + 1 =>
    simp only [dfsF]
    have h3 : ∀ c ∈ iter_child_topics topic,
        dfsF g₁ c (depth + 1) = dfsF g₂ c (depth + 1) := by
      intro c hc
      have hlt := size_lt_of_mem_iter hc
      exact dfsF_congr g₁ g₂ c (depth + 1) (by omega) (by omega)
    rw [List.map_congr_left h3]
termination_by f₁

/-- The recurrence of the depth-first traversal. -/
theorem dfsTopics_eq (topic : Elem) (depth : ℕ) :
    dfsTopics topic depth =
      (topic, depth) ::
        ((iter_child_topics topic).map (fun c => dfsTopics c (depth + 1))).flatten := by
  unfold dfsTopics
  rcases hs : topic.size with _ | n
  · exact absurd (hs ▸ Elem.one_le_size topic) (by omega)
  · simp only [dfsF]
    have h3 : ∀ c ∈ iter_child_topics topic,
        dfsF n c (depth + 1) = dfsF c.size c (depth + 1) := by
      intro c hc
      have hlt := size_lt_of_mem_iter hc
      exact dfsF_congr n c.size c (depth + 1) (by omega) (by omega)
    rw [List.map_congr_left h3]

/-- `gather_immediate_child_text`: the truthy texts of the direct child
topics, in canonical order. -/
def gather_immediate_child_text (topic : Elem) : List String :=
  (iter_child_topics topic).filterMap
    (fun c => match get_topic_text c with
      | some s => if s = "" then none else some s
      | none => none)

/-- A value Python's `float(...)` can return: a finite rational, a signed
infinity (`inf true` is `+inf`), or NaN. -/
inductive PyFloat where
  | finite (q : ℚ)
  | inf (pos : Bool)
  | nan
deriving DecidableEq

def PyFloat.isNan : PyFloat → Bool
  | .nan => true
  | _ => false

/-- Lower-case an ASCII letter (Python `float` accepts `inf`, `Inf`, …). -/
def asciiLower (c : Char) : Char :=
  if 'A' ≤ c && c ≤ 'Z' then Char.ofNat (c.toNat + 32) else c

/-- The numeric value of a digit string. -/
def digitsVal (l : List Char) : ℕ :=
  l.foldl (fun acc c => acc * 10 + (c.toNat - '0'.toNat)) 0

def parseDigits? (l : List Char) : Option ℕ :=
  if l ≠ [] && l.all Char.isDigit then some (digitsVal l) else none

/-- Parse the mantissa of a decimal literal: digits with an optional
decimal point (at least one digit overall). -/
def parseMantissa? (l : List Char) : Option ℚ :=
  match l.splitOn '.' with
  | [ip] => (parseDigits? ip).map (fun n => (n : ℚ))
  | [ip, fp] =>
    if ip.all Char.isDigit && fp.all Char.isDigit && !(ip.isEmpty && fp.isEmpty) then
      some ((digitsVal ip : ℚ) + (digitsVal fp : ℚ) / (10 : ℚ) ^ fp.length)
    else none
  | _ => none

/-- Parse a (signed) decimal exponent. -/
def parseExp? (l : List Char) : Option ℤ :=
  match l with
  | '+' :: rest => (parseDigits? rest).map (fun n => (n : ℤ))
  | '-' :: rest => (parseDigits? rest).map (fun n => -(n : ℤ))
  | _ => (parseDigits? l).map (fun n => (n : ℤ))

/-- Parse an unsigned decimal literal with optional exponent. -/
def parseDecimal? (l : List Char) : Option ℚ :=
  match l.splitOn 'e' with
  | [m] => parseMantissa? m
  | [m, ex] => do
    let mv ← parseMantissa? m
    let e ← parseExp? ex
    pure (mv * (10 : ℚ) ^ e)
  | _ => none

/-- Models Python's `float(str)` on the forms the documents use: optional
surrounding whitespace, optional sign, then `inf`/`infinity`/`nan`
(case-insensitive) or a decimal literal with optional fraction and
exponent.  Any other string raises `ValueError`, modelled as `none`. -/
def parsePyFloat (s : String) : Option PyFloat :=
  let u := (pyStrip s).data.map asciiLower
  let signBody : Bool × List Char :=
    match u with
    | '+' :: rest => (false, rest)
    | '-' :: rest => (true, rest)
    | rest => (false, rest)
  let neg := signBody.1
  let body := signBody.2
  if body = "inf".data || body = "infinity".data then some (.inf (!neg))
  else if body = "nan".data then some .nan
  else (parseDecimal? body).map (fun q => .finite (if neg then -q else q))

/-- `get_topic_position`: read the `Offset` child's `CX`/`CY` attributes
(defaulting to `"nan"` when absent), fail (`None`) when either does not
parse, and filter with the source's `value != value` check — which
rejects exactly NaN, letting infinities through. -/
def get_topic_position (topic : Elem) : Option (PyFloat × PyFloat) :=
  match findChild topic "Offset" with
  | none => none
  | some offset =>
    match parsePyFloat ((getAttr offset "CX").getD "nan"),
          parsePyFloat ((getAttr offset "CY").getD "nan") with
    | some cx, some cy => if cx.isNan || cy.isNan then none else some (cx, cy)
    | _, _ => none

/-- The rational restriction of `get_topic_position` used by the
renderers: the scalar pipeline is modelled over exact rationals, so a
position whose coordinate is an infinity (which the source's NaN-only
check admits) has no rational counterpart and is treated as absent.
On all finite positions this coincides with the source. -/
def getTopicPos (topic : Elem) : Option (ℚ × ℚ) :=
  match get_topic_position topic with
  | some (.finite x, .finite y) => some (x, y)
  | _ => none

/-- One cluster of `_cluster_indices`: the running centroid and the
original indices absorbed so far. -/
structure Cluster where
  center : ℚ
  members : List ℕ

/-- One step of the leader-clustering walk: start a new cluster when the
value exceeds the last cluster's running centroid by more than the
tolerance, otherwise absorb it and update the centroid to the
incremental mean (`(center * (len - 1) + value) / len` with `len` the
member count after appending). -/
def clusterStep (tolerance : ℚ) (clusters : List Cluster) (p : ℕ × ℚ) : List Cluster :=
  match clusters.getLast? with
  | none => [⟨p.2, [p.1]⟩]
  | some last =>
    if p.2 - last.center > tolerance then clusters ++ [⟨p.2, [p.1]⟩]
    else
      clusters.dropLast ++
        [⟨(last.center * (last.members.length : ℚ) + p.2) / ((last.members.length : ℚ) + 1),
          last.members ++ [p.1]⟩]

/-- All members of all clusters, in cluster-creation and absorption
order. -/
def membersConcat (clusters : List Cluster) : List ℕ :=
  (clusters.map (·.members)).flatten

/-- The Python `mapping` dict: `mapping[member] = cluster_index` for each
cluster in order (keys are distinct, so an association list queried with
`List.lookup` is an exact model). -/
def buildMappingAux : ℕ → List Cluster → List (ℕ × ℕ)
  | _, [] => []
  | ci, c :: rest => c.members.map (fun m => (m, ci)) ++ buildMappingAux (ci + 1) rest

/-- `sorted(enumerate(values), key=lambda pair: pair[1])`: a stable sort
of the indexed values by value. -/
def sortedEnum (values : List ℚ) : List (ℕ × ℚ) :=
  List.insertionSort (fun a b => a.2 ≤ b.2) values.enum

/-- `_cluster_indices`: leader clustering of one axis' scalar values. -/
def _cluster_indices (values : List ℚ) (tolerance : ℚ := 25) :
    Option (List ℚ × List (ℕ × ℕ)) :=
  if values = [] then none
  else
    let clusters := (sortedEnum values).foldl (clusterStep tolerance) []
    some (clusters.map (·.center), buildMappingAux 0 clusters)

/-- The lexicographic `(x, y, original index)` key order used by
`sort_topics_by_position`. -/
def posKeyLe (a b : ℚ × ℚ × ℕ × Elem) : Prop :=
  a.1 < b.1 ∨ (a.1 = b.1 ∧ (a.2.1 < b.2.1 ∨ (a.2.1 = b.2.1 ∧ a.2.2.1 ≤ b.2.2.1)))

instance : DecidableRel posKeyLe := fun a b => by unfold posKeyLe; infer_instance

/-- `sort_topics_by_position`: positioned topics sorted by `(x, y,
index)`, followed by unpositioned topics in original order (sorting the
unplaced list by index is the identity since it was built in index
order). -/
def sort_topics_by_position (topics : List Elem) : List Elem :=
  let indexed := topics.enum
  let placed := indexed.filterMap (fun p =>
    (getTopicPos p.2).map (fun q => (q.1, q.2, p.1, p.2)))
  let unplaced := indexed.filter (fun p => (getTopicPos p.2).isNone)
  (List.insertionSort posKeyLe placed).map (·.2.2.2) ++ unplaced.map (·.2)

/-- The optional level-1 heading for the central topic's truthy text. -/
def titleLines (centralTitle : Option String) : List String :=
  match centralTitle with
  | some s => if s = "" then [] else ["# " ++ s]
  | none => []

/-- `render_board_sections`: one level-2 section per ordered topic with
truthy text, followed by its child bullets and a blank separator; a
single trailing blank line is trimmed. -/
def render_board_sections (centralTitle : Option String) (topics : List Elem) :
    List String :=
  let ordered := sort_topics_by_position topics
  let body := (ordered.map (fun t =>
    match get_topic_text t with
    | some h =>
      if h = "" then []
      else ("## " ++ h) :: ((gather_immediate_child_text t).map (fun c => "- " ++ c) ++ [""])
    | none => [])).flatten
  let lines := titleLines centralTitle ++ body
  if lines.getLast? = some "" then lines.dropLast else lines

/-- `looks_like_board_layout`: the spatial-board applicability test. -/
def looks_like_board_layout (topics : List Elem) : Bool :=
  if topics.length < 4 then false
  else
    let names := topics.map get_topic_text
    if !(names.all truthy) then false
    else
      let uniqueNames := (names.filterMap (fun n =>
        match n with
        | some s => if s = "" then none else some s
        | none => none)).dedup
      if uniqueNames.length < max 3 (names.length - 1) then false
      else
        let positioned := (topics.map getTopicPos).countP (·.isSome)
        if positioned < topics.length / 2 then false
        else
          let childCounts := (topics.filter
            (fun t => decide (gather_immediate_child_text t ≠ []))).length
          decide (topics.length / 2 ≤ childCounts)

/-- One `(heading, children)` entry of a table cell, one per topic that
landed in the cell. -/
structure TableEntry where
  heading : Option String
  children : List String
deriving DecidableEq

/-- The per-cell summary of `render_canvas_table`.  The Python caches
`heading_count` and `child_count` next to `entries`; both are derived
from the entries in the same loop, so they are modelled as functions. -/
structure CellInfo where
  entries : List TableEntry
deriving DecidableEq

/-- Number of entries with truthy heading text. -/
def CellInfo.headingCount (c : CellInfo) : ℕ :=
  (c.entries.filter (fun e => truthy e.heading)).length

/-- Total number of immediate child texts over all entries. -/
def CellInfo.childCount (c : CellInfo) : ℕ :=
  (c.entries.map (fun e => e.children.length)).sum

def mkCellInfo (topics : List Elem) : CellInfo :=
  ⟨topics.map (fun t => ⟨get_topic_text t, gather_immediate_child_text t⟩)⟩

def emptyCell : CellInfo := ⟨[]⟩

/-- `cell_data[r][c]`; indices are always in range where used. -/
def cellAt (cellData : List (List CellInfo)) (r c : ℕ) : CellInfo :=
  (cellData.getD r []).getD c emptyCell

/-- `extract_first_heading`: the first truthy heading among a cell's
entries. -/
def extract_first_heading (entries : List TableEntry) : Option String :=
  entries.findSome? (fun e =>
    match e.heading with
    | some h => if h = "" then none else some h
    | none => none)

/-- `is_header_row`: the header-row heuristic over the cells of one row
taken in column order. -/
def is_header_row (cellData : List (List CellInfo)) (colOrder : List ℕ)
    (rowIdx : ℕ) : Bool :=
  let cells := colOrder.map (fun colIdx => cellAt cellData rowIdx colIdx)
  let headingCells := (cells.filter (fun cell => decide (0 < cell.headingCount))).length
  let totalCells := cells.length
  if headingCells < max 2 (totalCells / 2) then false
  else decide ((cells.map (·.childCount)).sum ≤ headingCells * 2)

/-- `is_header_column`: the header-column heuristic over the non-empty
cells of one column, excluding `skipRow`. -/
def is_header_column (cellData : List (List CellInfo)) (rowOrder : List ℕ)
    (colIdx : ℕ) (skipRow : Option ℕ) : Bool :=
  let relevant := ((rowOrder.filter (fun r => decide (skipRow ≠ some r))).map
    (fun r => cellAt cellData r colIdx)).filter (fun cell => decide (cell.entries ≠ []))
  if relevant.length < 2 then false
  else
    let headingCells := (relevant.filter (fun cell => decide (0 < cell.headingCount))).length
    if headingCells < max 1 (relevant.length - 1) then false
    else decide ((relevant.map (·.childCount)).sum ≤ headingCells)

/-- `format_entries`: render one cell's entries as `<br>`-joined bullet
lines, or an em-dash for an empty cell. -/
def format_entries (entries : List TableEntry) : String :=
  if entries = [] then "—"
  else
    let lines := (entries.map (fun e =>
      match e.heading with
      | some h =>
        if h = "" then e.children.map (fun c => "- " ++ c)
        else ("- " ++ h) :: e.children.map (fun c => "  - " ++ c)
      | none => e.children.map (fun c => "- " ++ c))).flatten
    if lines = [] then "—" else String.intercalate "<br>" lines

/-- `render_canvas_table`: detect and render a tabular layout from the
central topic's direct children, or `none` when inapplicable.  The
`mapping` dict lookups (`row_map[idx]`, `col_map[idx]`) are modelled
with `List.lookup … |>.getD 0`; the lookup is total on the valid
indices (see the clustering invariants below), so the default is never
consulted. -/
def render_canvas_table (centralTitle : Option String) (topics : List Elem) :
    Option (List String) :=
  let validTopics := topics.filter
    (fun t => truthy (get_topic_text t) && (getTopicPos t).isSome)
  let positions := validTopics.filterMap getTopicPos
  if validTopics.length < 2 then none
  else
    let xs := positions.map (·.1)
    let ys := positions.map (·.2)
    match _cluster_indices xs 25, _cluster_indices ys 25 with
    | some (colCenters, colMap), some (rowCenters, rowMap) =>
      let nCols := colCenters.length
      let nRows := rowCenters.length
      if nCols < 2 || nRows < 2 then none
      else
        let cellTopicsAt : ℕ → ℕ → List Elem := fun r c =>
          (validTopics.enum.filter (fun p =>
            decide ((rowMap.lookup p.1).getD 0 = r) &&
              decide ((colMap.lookup p.1).getD 0 = c))).map (·.2)
        let cellData : List (List CellInfo) :=
          (List.range nRows).map (fun r =>
            (List.range nCols).map (fun c => mkCellInfo (cellTopicsAt r c)))
        let rowOrder := List.insertionSort
          (fun i j => rowCenters.getD i 0 ≤ rowCenters.getD j 0) (List.range nRows)
        let colOrder := List.insertionSort
          (fun i j => colCenters.getD i 0 ≤ colCenters.getD j 0) (List.range nCols)
        let headerRowIdx := rowOrder.headD 0
        let useColumnHeaders := is_header_row cellData colOrder headerRowIdx
        let headerColIdx := colOrder.headD 0
        let useRowHeaders0 := is_header_column cellData rowOrder headerColIdx
          (if useColumnHeaders then some headerRowIdx else none)
        let bodyRows0 := rowOrder.filter (fun idx => !(useColumnHeaders && idx == headerRowIdx))
        let bodyRows := if bodyRows0 = [] then rowOrder else bodyRows0
        let bodyCols0 := if useRowHeaders0 then colOrder.filter (fun idx => idx != headerColIdx)
          else colOrder
        let bodyCols := if bodyCols0 = [] then colOrder else bodyCols0
        let useRowHeaders := if bodyCols0 = [] then false else useRowHeaders0
        let columnHeaders :=
          if useColumnHeaders then
            bodyCols.enum.map (fun p =>
              (extract_first_heading (cellAt cellData headerRowIdx p.2).entries).getD
                ("Column " ++ toString (p.1 + 1)))
          else (List.range bodyCols.length).map (fun pos => "Column " ++ toString (pos + 1))
        let rowLabels : List (ℕ × String) :=
          if useRowHeaders then
            bodyRows.enum.map (fun p =>
              (p.2, (extract_first_heading (cellAt cellData p.2 headerColIdx).entries).getD
                ("Row " ++ toString (p.1 + 1))))
          else []
        let headerCells := (if useRowHeaders then [" "] else []) ++ columnHeaders
        let headerLine := "| " ++ String.intercalate " | " headerCells ++ " |"
        let separator := "| " ++ String.intercalate " | " (headerCells.map (fun _ => "---")) ++ " |"
        let bodyLines := bodyRows.filterMap (fun rowIdx =>
          let rowCells :=
            (if useRowHeaders then [(rowLabels.lookup rowIdx).getD "—"] else []) ++
              bodyCols.map (fun colIdx => format_entries (cellAt cellData rowIdx colIdx).entries)
          if rowCells = [] then none
          else some ("| " ++ String.intercalate " | " rowCells ++ " |"))
        let lines := titleLines centralTitle ++ [headerLine, separator] ++ bodyLines
        if 2 < lines.length then some lines else none
    | _, _ => none

/-- Python truthiness of the optional canvas result (`if canvas_lines:`):
neither `None` nor the empty list. -/
def truthyLines : Option (List String) → Bool
  | some ls => ls != []
  | none => false

/-- `root.find(".//{*}OneTopic/{*}Topic")`: the first `Topic` child of a
descendant `OneTopic` container, in document order. -/
def findOneTopicCentral (root : Elem) : Option Elem :=
  ((((descendants root).filter (fun e => e.tag == "OneTopic")).map
    (fun ot => ot.children.filter (fun c => c.tag == "Topic"))).flatten).head?

/-- `root.find(".//{*}Topic")`: the first `Topic` descendant. -/
def findAnyTopic (root : Elem) : Option Elem :=
  ((descendants root).filter (fun e => e.tag == "Topic")).head?

/-- The central-topic search of `extract_markdown_lines`. -/
def findCentralTopic (root : Elem) : Option Elem :=
  match findOneTopicCentral root with
  | some t => some t
  | none => findAnyTopic root

/-- The terminal failures reachable after a tree has been parsed. -/
inductive ConvError where
  | noTopicsFound
  | emptyDocument
deriving DecidableEq

instance {ε α : Type} [DecidableEq ε] [DecidableEq α] : DecidableEq (Except ε α) :=
  fun x y =>
    match x, y with
    | .ok a, .ok b =>
      if h : a = b then isTrue (by rw [h]) else isFalse (fun hh => h (Except.ok.inj hh))
    | .error a, .error b =>
      if h : a = b then isTrue (by rw [h]) else isFalse (fun hh => h (Except.error.inj hh))
    | .ok _, .error _ => isFalse (fun hh => Except.noConfusion hh)
    | .error _, .ok _ => isFalse (fun hh => Except.noConfusion hh)

/-- `extract_markdown_lines`, modelled from the parsed root element down
(the preceding file loading and XML parsing are I/O): locate the central
topic, try the canvas table, then the board layout, then the outline,
and fail on an empty result. -/
def extract_markdown_lines (root : Elem) : Except ConvError (List String) :=
  match findCentralTopic root with
  | none => .error .noTopicsFound
  | some central =>
    let topLevel := iter_child_topics central
    let canvas := render_canvas_table (get_topic_text central) topLevel
    let mdLines :=
      if truthyLines canvas then canvas.getD []
      else if looks_like_board_layout topLevel then
        render_board_sections (get_topic_text central) topLevel
      else walk_topic central 1
    if mdLines = [] then .error .emptyDocument else .ok mdLines

/-- A `Text` container holding its content in the `PlainText` attribute. -/
def mkTextEl (s : String) : Elem := elem "Text" [("PlainText", s)] none []

/-- An `Offset` element with the given coordinate attribute strings. -/
def mkOffset (cx cy : String) : Elem := elem "Offset" [("CX", cx), ("CY", cy)] none []

/-- The example tree of the spec: central topic `Plan` with children `A`
(position `(0, 0)`, one child `a1`) and `B` (position `(10, 10)`, one
child `b1`); the positions fall into a single column and a single row
cluster, so the table strategy is inapplicable. -/
def exA : Elem := elem "Topic" [] none
  [mkTextEl "A", mkOffset "0" "0",
   elem "SubTopics" [] none [elem "Topic" [] none [mkTextEl "a1"]]]

def exB : Elem := elem "Topic" [] none
  [mkTextEl "B", mkOffset "10" "10",
   elem "SubTopics" [] none [elem "Topic" [] none [mkTextEl "b1"]]]

def exPlan : Elem := elem "Topic" [] none
  [mkTextEl "Plan", elem "SubTopics" [] none [exA, exB]]

def exRoot : Elem := elem "Map" [] none [elem "OneTopic" [] none [exPlan]]

/-- A root with no topic elements at all. -/
def exEmptyRoot : Elem := elem "Map" [] none []

/-!  Invariants of the leader clustering. -/

instance : IsTotal (ℕ × ℚ) (fun a b => a.2 ≤ b.2) :=
  ⟨fun a b => le_total a.2 b.2⟩

instance : IsTrans (ℕ × ℚ) (fun a b => a.2 ≤ b.2) :=
  ⟨fun _ _ _ => le_trans⟩

theorem sortedEnum_pairwise (values : List ℚ) :
    (sortedEnum values).Pairwise (fun a b => a.2 ≤ b.2) :=
  List.sorted_insertionSort (fun a b : ℕ × ℚ => a.2 ≤ b.2) values.enum

theorem sortedEnum_perm (values : List ℚ) :
    List.Perm (sortedEnum values) values.enum :=
  List.perm_insertionSort (fun a b : ℕ × ℚ => a.2 ≤ b.2) values.enum

theorem sortedEnum_map_fst_perm (values : List ℚ) :
    List.Perm ((sortedEnum values).map Prod.fst) (List.range values.length) :=
  ((sortedEnum_perm values).map Prod.fst).trans
    (by rw [List.enum_map_fst])

theorem sortedEnum_length (values : List ℚ) :
    (sortedEnum values).length = values.length := by
  rw [(sortedEnum_perm values).length_eq, List.enum_length]

theorem snd_mem_of_mem_sortedEnum {values : List ℚ} {p : ℕ × ℚ}
    (h : p ∈ sortedEnum values) : p.2 ∈ values := by
  have h2 : p ∈ values.enum := (sortedEnum_perm values).mem_iff.mp h
  have h3 : p.2 ∈ values.enum.map Prod.snd := List.mem_map_of_mem Prod.snd h2
  rwa [List.enum_map_snd] at h3

/-- The centroid of the cluster that absorbs the next value. -/
def lastCenter (cs : List Cluster) : ℚ :=
  match cs.getLast? with
  | some c => c.center
  | none => 0

theorem membersConcat_append (l₁ l₂ : List Cluster) :
    membersConcat (l₁ ++ l₂) = membersConcat l₁ ++ membersConcat l₂ := by
  simp [membersConcat]

theorem foldl_clusterStep_inv (tol : ℚ) :
    ∀ (l : List (ℕ × ℚ)) (cs : List Cluster),
      cs ≠ [] →
      (∀ c ∈ cs, c.members ≠ []) →
      (cs.map Cluster.center).Chain' (fun a b => a + tol < b) →
      (∀ p ∈ l, lastCenter cs ≤ p.2) →
      l.Pairwise (fun a b => a.2 ≤ b.2) →
      (l.foldl (clusterStep tol) cs ≠ [] ∧
       (∀ c ∈ l.foldl (clusterStep tol) cs, c.members ≠ []) ∧
       ((l.foldl (clusterStep tol) cs).map Cluster.center).Chain'
         (fun a b => a + tol < b) ∧
       membersConcat (l.foldl (clusterStep tol) cs) =
         membersConcat cs ++ l.map Prod.fst) := by
  intro l
  induction l with
  | nil =>
    intro cs h1 h2 h3 _ _
    exact ⟨h1, h2, h3, by simp⟩
  | cons p rest ih =>
    intro cs h1 h2 h3 h4 h5
    obtain ⟨last, hlast⟩ := Option.isSome_iff_exists.mp
      (List.getLast?_isSome.mpr h1)
    obtain ⟨ys, rfl⟩ := List.getLast?_eq_some_iff.mp hlast
    have hlc : lastCenter (ys ++ [last]) = last.center := by
      simp [lastCenter, List.getLast?_concat]
    have hcv : last.center ≤ p.2 := by
      have := h4 p (List.mem_cons_self p rest)
      rwa [hlc] at this
    have hrest : ∀ q ∈ rest, p.2 ≤ q.2 := (List.pairwise_cons.mp h5).1
    have hrestpw : rest.Pairwise (fun a b => a.2 ≤ b.2) :=
      (List.pairwise_cons.mp h5).2
    rw [List.foldl_cons]
    have hstep : clusterStep tol (ys ++ [last]) p =
        if p.2 - last.center > tol then (ys ++ [last]) ++ [⟨p.2, [p.1]⟩]
        else ys ++ [⟨(last.center * (last.members.length : ℚ) + p.2) /
            ((last.members.length : ℚ) + 1), last.members ++ [p.1]⟩] := by
      unfold clusterStep
      rw [hlast]
      by_cases hcond : p.2 - last.center > tol
      · simp [hcond]
      · simp [hcond, List.dropLast_concat]
    by_cases hcond : p.2 - last.center > tol
    · -- a new cluster is created
      rw [hstep, if_pos hcond]
      have hA : (ys ++ [last]) ++ [(⟨p.2, [p.1]⟩ : Cluster)] ≠ [] := by simp
      have hB : ∀ c ∈ (ys ++ [last]) ++ [(⟨p.2, [p.1]⟩ : Cluster)], c.members ≠ [] := by
        intro c hc
        rcases List.mem_append.mp hc with hc | hc
        · exact h2 c hc
        · simp only [List.mem_singleton] at hc
          subst hc; simp
      have hC : (((ys ++ [last]) ++ [(⟨p.2, [p.1]⟩ : Cluster)]).map
          Cluster.center).Chain' (fun a b => a + tol < b) := by
        rw [List.map_append]
        rw [List.chain'_append]
        refine ⟨h3, List.chain'_singleton _, ?_⟩
        intro x hx y hy
        simp only [List.map_append, List.map_cons, List.map_nil] at hx
        rw [List.getLast?_concat] at hx
        simp only [Option.mem_def, Option.some.injEq] at hx
        simp only [List.map_cons, List.map_nil, List.head?_cons,
          Option.mem_def, Option.some.injEq] at hy
        subst hx; subst hy
        linarith
      have hE : lastCenter ((ys ++ [last]) ++ [(⟨p.2, [p.1]⟩ : Cluster)]) = p.2 := by
        simp [lastCenter, List.getLast?_concat]
      obtain ⟨r1, r2, r3, r4⟩ := ih ((ys ++ [last]) ++ [⟨p.2, [p.1]⟩]) hA hB hC
        (fun q hq => by rw [hE]; exact hrest q hq) hrestpw
      refine ⟨r1, r2, r3, ?_⟩
      rw [r4, membersConcat_append]
      simp [membersConcat]
    · -- the value is absorbed into the last cluster
      rw [hstep, if_neg hcond]
      set n : ℕ := last.members.length with hn
      set c' : ℚ := (last.center * (n : ℚ) + p.2) / ((n : ℚ) + 1) with hc'
      have hnpos : (0 : ℚ) < (n : ℚ) + 1 := by positivity
      have hge : last.center ≤ c' := by
        rw [hc', le_div_iff₀ hnpos]
        nlinarith [(Nat.cast_nonneg n : (0 : ℚ) ≤ (n : ℚ))]
      have hle : c' ≤ p.2 := by
        rw [hc', div_le_iff₀ hnpos]
        nlinarith [(Nat.cast_nonneg n : (0 : ℚ) ≤ (n : ℚ))]
      have hA : ys ++ [(⟨c', last.members ++ [p.1]⟩ : Cluster)] ≠ [] := by simp
      have hB : ∀ c ∈ ys ++ [(⟨c', last.members ++ [p.1]⟩ : Cluster)],
          c.members ≠ [] := by
        intro c hc
        rcases List.mem_append.mp hc with hc | hc
        · exact h2 c (List.mem_append.mpr (Or.inl hc))
        · simp only [List.mem_singleton] at hc
          subst hc; simp
      have hC : ((ys ++ [(⟨c', last.members ++ [p.1]⟩ : Cluster)]).map
          Cluster.center).Chain' (fun a b => a + tol < b) := by
        rw [List.map_append] at h3 ⊢
        rw [List.chain'_append] at h3 ⊢
        refine ⟨h3.1, List.chain'_singleton _, ?_⟩
        intro x hx y hy
        simp only [List.map_cons, List.map_nil, List.head?_cons,
          Option.mem_def, Option.some.injEq] at hy
        have := h3.2.2 x hx last.center (by simp)
        subst hy
        calc x + tol < last.center := this
          _ ≤ c' := hge
      have hE : lastCenter (ys ++ [(⟨c', last.members ++ [p.1]⟩ : Cluster)]) = c' := by
        simp [lastCenter, List.getLast?_concat]
      obtain ⟨r1, r2, r3, r4⟩ := ih (ys ++ [⟨c', last.members ++ [p.1]⟩]) hA hB hC
        (fun q hq => by rw [hE]; exact le_trans hle (hrest q hq)) hrestpw
      refine ⟨r1, r2, r3, ?_⟩
      rw [r4, membersConcat_append, membersConcat_append]
      simp [membersConcat]

/-- Everything `_cluster_indices` guarantees on a non-empty input, in
terms of the underlying cluster list. -/
theorem cluster_indices_core (values : List ℚ) (hne : values ≠ []) (tol : ℚ) :
    ∃ cs : List Cluster,
      _cluster_indices values tol = some (cs.map Cluster.center, buildMappingAux 0 cs) ∧
      cs ≠ [] ∧ (∀ c ∈ cs, c.members ≠ []) ∧
      ((cs.map Cluster.center).Chain' (fun a b => a + tol < b)) ∧
      membersConcat cs = (sortedEnum values).map Prod.fst := by
  have hlen : 0 < (sortedEnum values).length := by
    rw [sortedEnum_length]
    exact List.length_pos.mpr hne
  obtain ⟨p, rest, hpr⟩ : ∃ p rest, sortedEnum values = p :: rest := by
    cases hs : sortedEnum values with
    | nil => rw [hs] at hlen; simp at hlen
    | cons p rest => exact ⟨p, rest, rfl⟩
  have hpw := sortedEnum_pairwise values
  rw [hpr] at hpw
  have hrest : ∀ q ∈ rest, p.2 ≤ q.2 := (List.pairwise_cons.mp hpw).1
  have hrestpw : rest.Pairwise (fun a b : ℕ × ℚ => a.2 ≤ b.2) :=
    (List.pairwise_cons.mp hpw).2
  have hstep0 : clusterStep tol [] p = [⟨p.2, [p.1]⟩] := rfl
  have hfold := foldl_clusterStep_inv tol rest [⟨p.2, [p.1]⟩]
    (by simp)
    (by intro c hc; simp only [List.mem_singleton] at hc; subst hc; simp)
    (by simp)
    (by intro q hq; simpa [lastCenter] using hrest q hq)
    hrestpw
  obtain ⟨r1, r2, r3, r4⟩ := hfold
  refine ⟨rest.foldl (clusterStep tol) [⟨p.2, [p.1]⟩], ?_, r1, r2, r3, ?_⟩
  · unfold _cluster_indices
    rw [if_neg hne, hpr, List.foldl_cons, hstep0]
  · rw [r4, hpr]
    simp [membersConcat]

theorem buildMappingAux_keys (cs : List Cluster) :
    ∀ (k : ℕ), (buildMappingAux k cs).map Prod.fst = membersConcat cs := by
  induction cs with
  | nil => intro k; rfl
  | cons c rest ih =>
    intro k
    have hid : List.map (Prod.fst ∘ fun m => (m, k)) c.members = c.members :=
      (List.map_congr_left (fun a _ => rfl)).trans (List.map_id c.members)
    simp only [buildMappingAux, membersConcat, List.map_append, List.map_map,
      List.map_cons, List.flatten_cons]
    rw [hid, ih]
    rfl

theorem buildMappingAux_mem_bound {m ci : ℕ} :
    ∀ (cs : List Cluster) (k : ℕ), (m, ci) ∈ buildMappingAux k cs →
      k ≤ ci ∧ ci < k + cs.length := by
  intro cs
  induction cs with
  | nil => intro k h; simp [buildMappingAux] at h
  | cons c rest ih =>
    intro k h
    simp only [buildMappingAux, List.mem_append, List.mem_map] at h
    rcases h with ⟨a, -, hev⟩ | h
    · cases hev
      simp
    · have := ih (k + 1) h
      simp only [List.length_cons]
      omega

theorem buildMappingAux_mem_of_mem_members {m : ℕ} :
    ∀ (cs : List Cluster) (k : ℕ) (j : ℕ) (hj : j < cs.length),
      m ∈ (cs.get ⟨j, hj⟩).members → (m, k + j) ∈ buildMappingAux k cs := by
  intro cs
  induction cs with
  | nil => intro k j hj; simp at hj
  | cons c rest ih =>
    intro k j hj hm
    cases j with
    | zero =>
      simp only [List.get] at hm
      simp only [buildMappingAux, List.mem_append, List.mem_map]
      exact Or.inl ⟨m, hm, by simp⟩
    | succ j =>
      simp only [List.get] at hm
      have := ih (k + 1) j (by simpa using Nat.lt_of_succ_lt_succ hj) hm
      simp only [buildMappingAux, List.mem_append]
      refine Or.inr ?_
      have harith : k + 1 + j = k + (j + 1) := by omega
      rwa [harith] at this

theorem mem_buildMappingAux_of_mem_membersConcat {m : ℕ} {cs : List Cluster}
    (h : m ∈ membersConcat cs) :
    ∃ ci, (m, ci) ∈ buildMappingAux 0 cs ∧ ci < cs.length := by
  have hget : ∃ j hj, m ∈ (cs.get ⟨j, hj⟩).members := by
    simp only [membersConcat, List.mem_flatten] at h
    obtain ⟨l, hl, hml⟩ := h
    obtain ⟨c, hc, rfl⟩ := List.mem_map.mp hl
    obtain ⟨⟨j, hj⟩, rfl⟩ := List.mem_iff_get.mp hc
    exact ⟨j, hj, hml⟩
  obtain ⟨j, hj, hmem⟩ := hget
  exact ⟨j, by simpa using buildMappingAux_mem_of_mem_members cs 0 j hj hmem, hj⟩

theorem lookup_eq_of_mem_of_nodup :
    ∀ {l : List (ℕ × ℕ)} {m v : ℕ}, (m, v) ∈ l → (l.map Prod.fst).Nodup →
      l.lookup m = some v := by
  intro l
  induction l with
  | nil => intro m v h; simp at h
  | cons a rest ih =>
    intro m v h hnd
    simp only [List.map_cons, List.nodup_cons] at hnd
    rcases List.mem_cons.mp h with heq | hmem
    · subst heq
      simp [List.lookup]
    · have hne : a.1 ≠ m := by
        intro heq
        exact hnd.1 (heq ▸ (by simpa using List.mem_map_of_mem Prod.fst hmem))
      cases a with
      | mk a1 a2 =>
        have hne2 : (m == a1) = false := by
          simp only [beq_eq_false_iff_ne]
          exact fun hh => hne hh.symm
        simp only [List.lookup, hne2]
        exact ih hmem hnd.2

theorem foldl_clusterStep_single (tol : ℚ) (m : ℚ) :
    ∀ (l : List (ℕ × ℚ)) (c : Cluster),
      m ≤ c.center →
      (∀ q ∈ l, m ≤ q.2 ∧ q.2 ≤ m + tol) →
      ∃ c', l.foldl (clusterStep tol) [c] = [c'] ∧ m ≤ c'.center ∧
        c'.members = c.members ++ l.map Prod.fst := by
  intro l
  induction l with
  | nil =>
    intro c hm _
    exact ⟨c, rfl, hm, by simp⟩
  | cons q rest ih =>
    intro c hm hq
    have hq1 := hq q (List.mem_cons_self q rest)
    have hcond : ¬(q.2 - c.center > tol) := by
      have : q.2 ≤ m + tol := hq1.2
      push_neg
      linarith
    have hstep : clusterStep tol [c] q =
        [⟨(c.center * (c.members.length : ℚ) + q.2) /
            ((c.members.length : ℚ) + 1), c.members ++ [q.1]⟩] := by
      unfold clusterStep
      simp [hcond]
    set n : ℕ := c.members.length with hn
    have hnpos : (0 : ℚ) < (n : ℚ) + 1 := by positivity
    have hge : m ≤ (c.center * (n : ℚ) + q.2) / ((n : ℚ) + 1) := by
      rw [le_div_iff₀ hnpos]
      nlinarith [(Nat.cast_nonneg n : (0 : ℚ) ≤ (n : ℚ)), hq1.1]
    rw [List.foldl_cons, hstep]
    obtain ⟨c', h1, h2, h3⟩ :=
      ih ⟨(c.center * (n : ℚ) + q.2) / ((n : ℚ) + 1), c.members ++ [q.1]⟩ hge
        (fun r hr => hq r (List.mem_cons_of_mem q hr))
    refine ⟨c', h1, h2, ?_⟩
    rw [h3]
    simp

/-- C3 / C10 / C4 share this: lookup facts for the produced mapping. -/
theorem cluster_indices_lookup (values : List ℚ) (hne : values ≠ []) (tol : ℚ) :
    ∃ cs : List Cluster,
      _cluster_indices values tol = some (cs.map Cluster.center, buildMappingAux 0 cs) ∧
      cs ≠ [] ∧
      ((cs.map Cluster.center).Chain' (fun a b => a + tol < b)) ∧
      (∀ i, i < values.length →
        ∃ cid, (buildMappingAux 0 cs).lookup i = some cid ∧ cid < cs.length) ∧
      (∀ cid, cid < cs.length →
        ∃ i, i < values.length ∧ (buildMappingAux 0 cs).lookup i = some cid) := by
  obtain ⟨cs, heq, hne2, hmem, hchain, hconcat⟩ := cluster_indices_core values hne tol
  have hperm : List.Perm (membersConcat cs) (List.range values.length) := by
    rw [hconcat]; exact sortedEnum_map_fst_perm values
  have hnodup : ((buildMappingAux 0 cs).map Prod.fst).Nodup := by
    rw [buildMappingAux_keys]
    exact hperm.symm.nodup (List.nodup_range _)
  refine ⟨cs, heq, hne2, hchain, ?_, ?_⟩
  · intro i hi
    have hmemi : i ∈ membersConcat cs :=
      hperm.symm.subset (List.mem_range.mpr hi)
    obtain ⟨cid, hmm, hlt⟩ := mem_buildMappingAux_of_mem_membersConcat hmemi
    exact ⟨cid, lookup_eq_of_mem_of_nodup hmm hnodup, hlt⟩
  · intro cid hcid
    obtain ⟨mm, hmm⟩ :=
      List.exists_mem_of_ne_nil _ (hmem (cs.get ⟨cid, hcid⟩) (cs.get_mem cid hcid))
    have hpair : (mm, cid) ∈ buildMappingAux 0 cs := by
      simpa using buildMappingAux_mem_of_mem_members cs 0 cid hcid hmm
    have hmmc : mm ∈ membersConcat cs := by
      have := List.mem_map_of_mem Prod.fst hpair
      rwa [buildMappingAux_keys] at this
    have hmlt : mm < values.length :=
      List.mem_range.mp (hperm.subset hmmc)
    exact ⟨mm, hmlt, lookup_eq_of_mem_of_nodup hpair hnodup⟩

theorem lookup_map_zero : ∀ (ms : List ℕ) (i : ℕ), i ∈ ms →
    (ms.map (fun mm => (mm, 0))).lookup i = some 0 := by
  intro ms
  induction ms with
  | nil => intro i h; simp at h
  | cons a rest ih =>
    intro i h
    rcases List.mem_cons.mp h with rfl | h
    · simp [List.lookup]
    · by_cases hai : i = a
      · subst hai; simp [List.lookup]
      · have hf : (i == a) = false := by simpa using hai
        simp only [List.map_cons, List.lookup, hf]
        exact ih i h

/-- C3: `_cluster_indices` sorts the indexed values stably by value,
walks them with the leader rule (new cluster exactly when the value
exceeds the running centroid by more than the tolerance, otherwise the
incremental mean absorbs it — this is the definition of `clusterStep`),
and returns the centers in creation order, which is ascending, together
with a total index-to-cluster map; the empty list yields `none`. -/
theorem cluster_indices_spec (values : List ℚ) :
    (values = [] → _cluster_indices values 25 = none) ∧
    (values ≠ [] →
      ∃ centers mapping,
        _cluster_indices values 25 = some (centers, mapping) ∧
        centers ≠ [] ∧
        centers.Chain' (fun a b => a < b) ∧
        (∀ i, i < values.length →
          ∃ cid, mapping.lookup i = some cid ∧ cid < centers.length)) := by
  constructor
  · intro h
    unfold _cluster_indices
    rw [if_pos h]
  · intro hne
    obtain ⟨cs, heq, hcne, hchain, htot, -⟩ := cluster_indices_lookup values hne 25
    refine ⟨cs.map Cluster.center, buildMappingAux 0 cs, heq, by simpa using hcne,
      ?_, ?_⟩
    · exact hchain.imp (fun {a b} h => by linarith)
    · intro i hi
      obtain ⟨cid, hcl, hlt⟩ := htot i hi
      exact ⟨cid, hcl, by simpa using hlt⟩

/-- Witness for C3 at the inputs `[]` and `[3, 50]`. -/
theorem cluster_indices_spec_witness :
    _cluster_indices ([] : List ℚ) 25 = none ∧
    (∃ centers mapping,
      _cluster_indices [(3 : ℚ), 50] 25 = some (centers, mapping) ∧
      centers ≠ [] ∧
      centers.Chain' (fun a b => a < b) ∧
      (∀ i, i < [(3 : ℚ), 50].length →
        ∃ cid, mapping.lookup i = some cid ∧ cid < centers.length)) :=
  ⟨(cluster_indices_spec []).1 rfl, (cluster_indices_spec [3, 50]).2 (by decide)⟩

/-- C10: on every non-empty input the cluster centers are strictly
increasing with consecutive gaps above the tolerance, the returned map
is total on the input indices with ids that index into the center list,
and every cluster id is hit (clusters are non-empty). -/
theorem cluster_indices_invariants (values : List ℚ) (hne : values ≠ []) :
    ∃ centers mapping,
      _cluster_indices values 25 = some (centers, mapping) ∧
      centers.Chain' (fun a b => a < b ∧ a + 25 < b) ∧
      (∀ i, i < values.length →
        ∃ cid, mapping.lookup i = some cid ∧ cid < centers.length) ∧
      (∀ cid, cid < centers.length →
        ∃ i, i < values.length ∧ mapping.lookup i = some cid) := by
  obtain ⟨cs, heq, hcne, hchain, htot, hsurj⟩ := cluster_indices_lookup values hne 25
  refine ⟨cs.map Cluster.center, buildMappingAux 0 cs, heq, ?_, ?_, ?_⟩
  · exact hchain.imp (fun {a b} h => ⟨by linarith, h⟩)
  · intro i hi
    obtain ⟨cid, h1, h2⟩ := htot i hi
    exact ⟨cid, h1, by simpa using h2⟩
  · intro cid hcid
    obtain ⟨i, h1, h2⟩ := hsurj cid (by simpa using hcid)
    exact ⟨i, h1, h2⟩

/-- Witness for C10 at the input `[0, 100]`. -/
theorem cluster_indices_invariants_witness :
    ∃ centers mapping,
      _cluster_indices [(0 : ℚ), 100] 25 = some (centers, mapping) ∧
      centers.Chain' (fun a b => a < b ∧ a + 25 < b) ∧
      (∀ i, i < [(0 : ℚ), 100].length →
        ∃ cid, mapping.lookup i = some cid ∧ cid < centers.length) ∧
      (∀ cid, cid < centers.length →
        ∃ i, i < [(0 : ℚ), 100].length ∧ mapping.lookup i = some cid) :=
  cluster_indices_invariants [0, 100] (by decide)

section RatEval

attribute [local semireducible] Rat.add Rat.mul Rat.inv Rat.sub

/-- C4 counterexample: in `[0, 10, 20, 30, 40]` every consecutive pair
is within the tolerance, so the whole chain collapses into one cluster;
the indices of the values `0` and `40` are both mapped to cluster `0`
although the two values are more than the tolerance apart, refuting
"two values separated by more than the tolerance never merge". -/
theorem cluster_indices_chaining_merge :
    _cluster_indices [(0 : ℚ), 10, 20, 30, 40] 25 =
      some ([20], [(0, 0), (1, 0), (2, 0), (3, 0), (4, 0)]) ∧
    [((0 : ℕ), (0 : ℕ)), (1, 0), (2, 0), (3, 0), (4, 0)].lookup 0 = some 0 ∧
    [((0 : ℕ), (0 : ℕ)), (1, 0), (2, 0), (3, 0), (4, 0)].lookup 4 = some 0 ∧
    (25 : ℚ) < 40 - 0 :=
  ⟨by decide, by decide, by decide, by decide⟩

/-- C4 (amended): two values separated by more than the tolerance can
still merge when chained through intermediate values (see the
counterexample); what does hold is the dual half of the claim: whenever
all values are pairwise within the tolerance of one another, exactly one
cluster is produced and every index maps to cluster `0`. -/
theorem cluster_indices_within_tolerance_single (values : List ℚ)
    (hne : values ≠ [])
    (hw : ∀ x ∈ values, ∀ y ∈ values, |x - y| ≤ 25) :
    ∃ center mapping,
      _cluster_indices values 25 = some ([center], mapping) ∧
      ∀ i, i < values.length → mapping.lookup i = some 0 := by
  have hlen : 0 < (sortedEnum values).length := by
    rw [sortedEnum_length]
    exact List.length_pos.mpr hne
  obtain ⟨p, rest, hpr⟩ : ∃ p rest, sortedEnum values = p :: rest := by
    cases hs : sortedEnum values with
    | nil => rw [hs] at hlen; simp at hlen
    | cons p rest => exact ⟨p, rest, rfl⟩
  have hpw := sortedEnum_pairwise values
  rw [hpr] at hpw
  have hrest : ∀ q ∈ rest, p.2 ≤ q.2 := (List.pairwise_cons.mp hpw).1
  have hpmem : p.2 ∈ values :=
    snd_mem_of_mem_sortedEnum (by rw [hpr]; exact List.mem_cons_self p rest)
  have hbound : ∀ q ∈ rest, p.2 ≤ q.2 ∧ q.2 ≤ p.2 + 25 := by
    intro q hq
    have hqmem : q.2 ∈ values :=
      snd_mem_of_mem_sortedEnum (by rw [hpr]; exact List.mem_cons_of_mem p hq)
    have habs := hw q.2 hqmem p.2 hpmem
    have := abs_le.mp habs
    exact ⟨hrest q hq, by linarith [this.1, this.2]⟩
  obtain ⟨c', hfold, -, hmembers⟩ :=
    foldl_clusterStep_single 25 p.2 rest ⟨p.2, [p.1]⟩ (le_refl p.2) hbound
  have heq : _cluster_indices values 25 =
      some ([c'.center], buildMappingAux 0 [c']) := by
    unfold _cluster_indices
    rw [if_neg hne, hpr, List.foldl_cons]
    have hstep0 : clusterStep 25 [] p = [⟨p.2, [p.1]⟩] := rfl
    rw [hstep0, hfold]
    rfl
  refine ⟨c'.center, buildMappingAux 0 [c'], heq, ?_⟩
  intro i hi
  have hmm : i ∈ c'.members := by
    rw [hmembers]
    have hperm := sortedEnum_map_fst_perm values
    rw [hpr] at hperm
    have : i ∈ List.range values.length := List.mem_range.mpr hi
    have := hperm.symm.subset this
    simpa using this
  have hbm : buildMappingAux 0 [c'] = c'.members.map (fun mm => (mm, 0)) := by
    simp [buildMappingAux]
  rw [hbm]
  exact lookup_map_zero c'.members i hmm

/-- Witness for the amended C4 at the input `[3, 10]`. -/
theorem cluster_indices_within_tolerance_single_witness :
    ∃ center mapping,
      _cluster_indices [(3 : ℚ), 10] 25 = some ([center], mapping) ∧
      ∀ i, i < [(3 : ℚ), 10].length → mapping.lookup i = some 0 :=
  cluster_indices_within_tolerance_single [3, 10] (by decide) (by decide)

end RatEval

theorem headingCount_pos_iff (cell : CellInfo) :
    0 < cell.headingCount ↔ cell.entries.any (fun e => truthy e.heading) = true := by
  unfold CellInfo.headingCount
  rw [List.length_pos]
  constructor
  · intro h
    rw [List.any_eq_true]
    obtain ⟨x, hx⟩ := List.exists_mem_of_ne_nil _ h
    exact ⟨x, (List.mem_filter.mp hx).1, (List.mem_filter.mp hx).2⟩
  · intro h
    rw [List.any_eq_true] at h
    obtain ⟨x, hx, hpx⟩ := h
    intro hnil
    have hmem : x ∈ cell.entries.filter (fun e => truthy e.heading) :=
      List.mem_filter.mpr ⟨hx, hpx⟩
    rw [hnil] at hmem
    simp at hmem

theorem headingCount_filter_eq (cells : List CellInfo) :
    cells.filter (fun cell => decide (0 < cell.headingCount)) =
      cells.filter (fun cell => cell.entries.any (fun e => truthy e.heading)) := by
  apply List.filter_congr
  intro cell _
  by_cases h : 0 < cell.headingCount
  · rw [decide_eq_true h, Eq.symm ((headingCount_pos_iff cell).mp h)]
  · have h2 : cell.entries.any (fun e => truthy e.heading) = false := by
      rw [← Bool.not_eq_true]
      exact fun hc => h ((headingCount_pos_iff cell).mpr hc)
    rw [h2, decide_eq_false h]

/-- C5: the header-row test holds exactly when the number of cells of
the row (taken in column order) containing at least one entry with
truthy heading text reaches `max 2 (numColumns / 2)` (integer division)
and the row's total immediate-grandchild-text count is at most twice
that heading-cell count; and the test reads only the tested row of the
cell grid, so interior rows never influence it (the caller evaluates it
only at `rowOrder.headD 0`, the lowest-center row). -/
theorem is_header_row_spec (cellData : List (List CellInfo)) (colOrder : List ℕ)
    (rowIdx : ℕ) :
    (is_header_row cellData colOrder rowIdx = true ↔
      (max 2 (colOrder.length / 2) ≤
        ((colOrder.map (fun colIdx => cellAt cellData rowIdx colIdx)).filter
          (fun cell => cell.entries.any (fun e => truthy e.heading))).length ∧
       ((colOrder.map (fun colIdx => cellAt cellData rowIdx colIdx)).map
          CellInfo.childCount).sum ≤
         2 * ((colOrder.map (fun colIdx => cellAt cellData rowIdx colIdx)).filter
           (fun cell => cell.entries.any (fun e => truthy e.heading))).length)) ∧
    (∀ cellData₂ : List (List CellInfo),
      cellData.getD rowIdx [] = cellData₂.getD rowIdx [] →
      is_header_row cellData colOrder rowIdx = is_header_row cellData₂ colOrder rowIdx) := by
  constructor
  · simp only [is_header_row]
    rw [headingCount_filter_eq]
    set cells := colOrder.map (fun colIdx => cellAt cellData rowIdx colIdx) with hcells
    have hlen : cells.length = colOrder.length := by
      rw [hcells, List.length_map]
    have hcd : (List.map (fun x : CellInfo => x.childCount) cells).sum =
        (List.map CellInfo.childCount cells).sum := rfl
    rw [hlen]
    split_ifs with h
    · simp only [Bool.false_eq_true, false_iff]
      rintro ⟨ha, -⟩
      omega
    · rw [decide_eq_true_eq]
      constructor
      · intro hb
        exact ⟨by omega, by omega⟩
      · rintro ⟨-, hb⟩
        omega
  · intro cellData₂ h
    unfold is_header_row cellAt
    rw [h]

/-- Witness for the row-independence half of C5: extending the grid with
an extra row does not change the header-row flag of row `0`. -/
theorem is_header_row_spec_witness :
    is_header_row [[CellInfo.mk [TableEntry.mk (some "H") []]]] [0] 0 =
      is_header_row [[CellInfo.mk [TableEntry.mk (some "H") []]], [emptyCell]] [0] 0 :=
  (is_header_row_spec [[CellInfo.mk [TableEntry.mk (some "H") []]]] [0] 0).2
    [[CellInfo.mk [TableEntry.mk (some "H") []]], [emptyCell]] (by rfl)

/-- C6: the spatial-board applicability test returns `true` exactly when
all five conditions hold: at least 4 children, every child with truthy
text, at least `max 3 (childCount - 1)` distinct truthy texts, at least
`⌊childCount / 2⌋` children with a resolvable position, and at least
`⌊childCount / 2⌋` children with at least one immediate child text
("at least half" in the source is `>= len(topics) // 2`, integer
division). -/
theorem looks_like_board_layout_iff (topics : List Elem) :
    looks_like_board_layout topics = true ↔
      (4 ≤ topics.length ∧
       (∀ t ∈ topics, truthy (get_topic_text t) = true) ∧
       max 3 (topics.length - 1) ≤
         ((topics.map get_topic_text).filterMap (fun n =>
           match n with
           | some s => if s = "" then none else some s
           | none => none)).dedup.length ∧
       topics.length / 2 ≤ (topics.map getTopicPos).countP (·.isSome) ∧
       topics.length / 2 ≤ (topics.filter
         (fun t => decide (gather_immediate_child_text t ≠ []))).length) := by
  simp only [looks_like_board_layout]
  have hall : ((topics.map get_topic_text).all truthy = true) ↔
      (∀ t ∈ topics, truthy (get_topic_text t) = true) := by
    rw [List.all_eq_true]
    constructor
    · intro h t ht
      exact h _ (List.mem_map_of_mem get_topic_text ht)
    · intro h x hx
      obtain ⟨t, ht, rfl⟩ := List.mem_map.mp hx
      exact h t ht
  split_ifs with h1 h2 h3 h4
  · simp only [Bool.false_eq_true, false_iff]
    rintro ⟨ha, -⟩
    omega
  · simp only [Bool.false_eq_true, false_iff]
    rintro ⟨-, hb, -⟩
    rw [hall.mpr hb] at h2
    simp at h2
  · simp only [Bool.false_eq_true, false_iff]
    rintro ⟨-, -, hc, -⟩
    rw [List.length_map] at h3
    omega
  · simp only [Bool.false_eq_true, false_iff]
    rintro ⟨-, -, -, hd, -⟩
    omega
  · rw [decide_eq_true_eq]
    constructor
    · intro hb
      refine ⟨by omega, ?_, ?_, by omega, hb⟩
      · rw [← hall]
        cases hv : (topics.map get_topic_text).all truthy with
        | false => exact absurd (by rw [hv]; decide) h2
        | true => rfl
      · rw [List.length_map] at h3
        omega
    · rintro ⟨-, -, -, -, he⟩
      exact he

/-- The text container of the C2 counterexample: a whitespace-only
`PlainText` attribute shadowing a nested `PlainText` element. -/
def c2TextNode : Elem :=
  elem "Text" [("PlainText", " ")] none [elem "PlainText" [] (some "hello") []]

def c2Cex : Elem := elem "Topic" [] none [c2TextNode]

/-- C2 counterexample: a whitespace-only `PlainText` attribute is truthy
in Python, so step 1 stops the chain even though its trimmed content is
empty; the non-empty content `"hello"` that step 2 would produce is
never returned, refuting "a step that produces only empty content does
not stop the chain". -/
theorem get_topic_text_whitespace_attr_stops :
    findChild c2Cex "Text" = some c2TextNode ∧
    textStepAttr c2TextNode = some "" ∧
    textStepPlainElem c2TextNode = some "hello" ∧
    get_topic_text c2Cex = some "" ∧
    get_topic_text c2Cex ≠ some "hello" :=
  ⟨rfl, by decide, by decide, by decide, by decide⟩

/-- C2 (amended): `get_topic_text` follows the four-step chain in order,
but steps 1 and 2 stop as soon as their *raw* (untrimmed) content is
non-empty, returning it trimmed — possibly as the empty string; step 3
stops when some paragraph yields content and step 4 only on non-empty
trimmed text; when no step fires, or the `Text` container is absent,
nothing is produced. -/
theorem get_topic_text_chain (t : Elem) :
    (findChild t "Text" = none → get_topic_text t = none) ∧
    (∀ tn, findChild t "Text" = some tn →
      ((∀ a, getAttr tn "PlainText" = some a → a ≠ "" →
          get_topic_text t = some (pyStrip a)) ∧
       (textStepAttr tn = none →
          ∀ pe s, findChild tn "PlainText" = some pe → pe.text = some s → s ≠ "" →
            get_topic_text t = some (pyStrip s)) ∧
       (textStepAttr tn = none → textStepPlainElem tn = none →
          paragraphResults tn ≠ [] →
            get_topic_text t = some (String.intercalate "\n" (paragraphResults tn))) ∧
       (textStepAttr tn = none → textStepPlainElem tn = none →
          textStepParagraphs tn = none →
          ∀ s, tn.text = some s → s ≠ "" → pyStrip s ≠ "" →
            get_topic_text t = some (pyStrip s)) ∧
       (textStepAttr tn = none → textStepPlainElem tn = none →
          textStepParagraphs tn = none → textStepDirect tn = none →
            get_topic_text t = none))) := by
  have hmatch : ∀ tn, findChild t "Text" = some tn → get_topic_text t =
      (match textStepAttr tn with
       | some r => some r
       | none =>
         match textStepPlainElem tn with
         | some r => some r
         | none =>
           match textStepParagraphs tn with
           | some r => some r
           | none => textStepDirect tn) := by
    intro tn htn
    unfold get_topic_text
    rw [htn]
  constructor
  · intro h
    unfold get_topic_text
    rw [h]
  · intro tn htn
    refine ⟨?_, ?_, ?_, ?_, ?_⟩
    · intro a ha hane
      have h1 : textStepAttr tn = some (pyStrip a) := by
        simp [textStepAttr, ha, hane]
      rw [hmatch tn htn, h1]
    · intro h1 pe s hpe hs hsne
      have h2 : textStepPlainElem tn = some (pyStrip s) := by
        simp [textStepPlainElem, hpe, hs, hsne]
      rw [hmatch tn htn, h1, h2]
    · intro h1 h2 h3
      have h4 : textStepParagraphs tn =
          some (String.intercalate "\n" (paragraphResults tn)) := by
        unfold textStepParagraphs
        rw [if_neg h3]
      rw [hmatch tn htn, h1, h2, h4]
    · intro h1 h2 h3 s hs hsne hstrip
      have h4 : textStepDirect tn = some (pyStrip s) := by
        simp [textStepDirect, hs, hsne, hstrip]
      rw [hmatch tn htn, h1, h2, h3, h4]
    · intro h1 h2 h3 h4
      rw [hmatch tn htn, h1, h2, h3, h4]

/-- Witness for the amended C2: a `" hi "` attribute stops at step 1 and
is returned stripped. -/
theorem get_topic_text_chain_witness :
    get_topic_text (elem "Topic" [] none [mkTextEl " hi "]) = some "hi" := by
  have h := ((get_topic_text_chain (elem "Topic" [] none [mkTextEl " hi "])).2
    (mkTextEl " hi ") (by rfl)).1 " hi " (by rfl) (by decide)
  rw [h]
  decide

def c9InfTopic : Elem := elem "Topic" [] none [mkOffset "inf" "0"]

def c9NanTopic : Elem := elem "Topic" [] none [mkOffset "nan" "0"]

/-- C9: the `value != value` filter of `get_topic_position` rejects only
NaN; an `"inf"` coordinate parses to `+inf` and is *returned as a
position*, contradicting the claim (and §4.2 of the spec) that
non-finite coordinates yield no position.  Missing offsets, NaN (the
default for a missing attribute) and non-numeric strings do yield
`none` as claimed. -/
theorem get_topic_position_nonfinite :
    get_topic_position c9InfTopic = some (PyFloat.inf true, PyFloat.finite 0) ∧
    get_topic_position c9NanTopic = none ∧
    get_topic_position (elem "Topic" [] none []) = none ∧
    get_topic_position
      (elem "Topic" [] none [elem "Offset" [("CX", "abc"), ("CY", "0")] none []]) =
      none ∧
    get_topic_position (elem "Topic" [] none [elem "Offset" [("CY", "7")] none []]) =
      none :=
  ⟨by decide, by decide, by decide, by decide, by decide⟩

/-- The optional heading line of one visited `(topic, depth)` pair. -/
def lineOf (p : Elem × ℕ) : Option String :=
  match get_topic_text p.1 with
  | some s => if s = "" then none else some (headingLine p.2 s)
  | none => none

theorem filterMap_flatten {α β : Type} (f : α → Option β) :
    ∀ (L : List (List α)),
      L.flatten.filterMap f = (L.map (fun l => l.filterMap f)).flatten
  | [] => rfl
  | l :: rest => by
    simp [List.filterMap_append, filterMap_flatten f rest]

theorem length_filterMap_eq_length_filter {α β : Type} (f : α → Option β) :
    ∀ (l : List α),
      (l.filterMap f).length = (l.filter (fun a => (f a).isSome)).length
  | [] => rfl
  | a :: rest => by
    rw [List.filterMap_cons]
    cases hfa : f a with
    | none => simp [List.filter_cons, hfa, length_filterMap_eq_length_filter f rest]
    | some b => simp [List.filter_cons, hfa, length_filterMap_eq_length_filter f rest]

theorem walk_eq_dfs_aux :
    ∀ (n : ℕ) (topic : Elem), topic.size ≤ n → ∀ level,
      walk_topic topic level = (dfsTopics topic level).filterMap lineOf := by
  intro n
  induction n with
  | zero =>
    intro t h
    exact absurd (le_trans (Elem.one_le_size t) h) (by omega)
  | succ n ih =>
    intro t h level
    rw [walk_topic_eq, dfsTopics_eq, List.filterMap_cons]
    have htail : ((iter_child_topics t).map (fun c => walk_topic c (level + 1))).flatten =
        ((((iter_child_topics t).map (fun c => dfsTopics c (level + 1))).flatten).filterMap
          lineOf) := by
      rw [filterMap_flatten, List.map_map]
      refine congrArg List.flatten (List.map_congr_left ?_)
      intro c hc
      have hlt := size_lt_of_mem_iter hc
      simp only [Function.comp]
      exact ih c (by omega) (level + 1)
    cases hx : get_topic_text t with
    | none => simp [walkHead, lineOf, hx, htail]
    | some s =>
      by_cases hse : s = ""
      · simp [walkHead, lineOf, hx, hse, htail]
      · simp [walkHead, lineOf, hx, hse, htail]

/-- C7: the outline renderer equals the depth-first traversal in
canonical child order (children at `depth + 1`, textless topics
contributing no line but still visited), with each kept topic emitting
one heading line at level `max depth 1`; consequently it emits exactly
one line per topic with truthy text.  The renderer never reads
positions, so this holds for every tree, in particular position-free
ones. -/
theorem walk_topic_outline (topic : Elem) (level : ℕ) :
    walk_topic topic level = (dfsTopics topic level).filterMap lineOf ∧
    (walk_topic topic level).length =
      ((dfsTopics topic level).filter
        (fun p => truthy (get_topic_text p.1))).length := by
  have hmain := walk_eq_dfs_aux topic.size topic (le_refl _) level
  refine ⟨hmain, ?_⟩
  rw [hmain, length_filterMap_eq_length_filter]
  congr 1
  apply List.filter_congr
  intro p _
  cases hx : get_topic_text p.1 with
  | none => simp [lineOf, truthy, hx]
  | some s =>
    by_cases hse : s = ""
    · simp [lineOf, truthy, hx, hse]
    · simp [lineOf, truthy, hx, hse]

section RatEvalTwo

attribute [local semireducible] Rat.add Rat.mul Rat.inv Rat.sub

set_option maxRecDepth 4000

/-- C8 counterexample: on the claim's example tree the conversion indeed
falls through the table and board strategies into the outline, but the
outline renders the grandchildren as depth-3 headings `### a1`, `### b1`
— never as the bullet lines `- a1`, `- b1` the claim expects (bullets
are the board renderer's format). -/
theorem extract_example_no_bullets :
    extract_markdown_lines exRoot ≠
      Except.ok ["# Plan", "## A", "- a1", "## B", "- b1"] ∧
    render_canvas_table (get_topic_text exPlan) (iter_child_topics exPlan) = none ∧
    looks_like_board_layout (iter_child_topics exPlan) = false :=
  ⟨by decide, by decide, by decide⟩

/-- C8 (amended): on the example tree — central topic `Plan`, children
`A` at `(0, 0)` with child `a1` and `B` at `(10, 10)` with child `b1`,
positions well within one cluster on each axis — the table strategy is
inapplicable (single row and column cluster), the board strategy fails
(2 < 4 children), and the outline renderer produces exactly
`# Plan`, `## A`, `### a1`, `## B`, `### b1` in that order. -/
theorem extract_example_outline :
    extract_markdown_lines exRoot =
      Except.ok ["# Plan", "## A", "### a1", "## B", "### b1"] ∧
    render_canvas_table (get_topic_text exPlan) (iter_child_topics exPlan) = none ∧
    looks_like_board_layout (iter_child_topics exPlan) = false ∧
    walk_topic exPlan 1 = ["# Plan", "## A", "### a1", "## B", "### b1"] :=
  ⟨by decide, by decide, by decide, by decide⟩

end RatEvalTwo

/-- C1: the conversion facade resolves strategies in strict priority
order.  The central topic is the first `Topic` under a `OneTopic`
container, else the first `Topic` anywhere, else the call fails with
`noTopicsFound`; a truthy canvas-table result is always used regardless
of the board test; otherwise the board renderer runs exactly when its
applicability test holds; otherwise the outline runs; an empty final
line list fails with `emptyDocument`. -/
theorem extract_markdown_lines_priority (root : Elem) :
    (∀ t, findOneTopicCentral root = some t → findCentralTopic root = some t) ∧
    (findOneTopicCentral root = none → findCentralTopic root = findAnyTopic root) ∧
    (findCentralTopic root = none →
      extract_markdown_lines root = .error .noTopicsFound) ∧
    (∀ ct, findCentralTopic root = some ct →
      ((∀ ls, render_canvas_table (get_topic_text ct) (iter_child_topics ct) = some ls →
          ls ≠ [] → extract_markdown_lines root = .ok ls) ∧
       (truthyLines (render_canvas_table (get_topic_text ct) (iter_child_topics ct)) =
          false →
        looks_like_board_layout (iter_child_topics ct) = true →
        extract_markdown_lines root =
          (if render_board_sections (get_topic_text ct) (iter_child_topics ct) = []
           then .error .emptyDocument
           else .ok (render_board_sections (get_topic_text ct) (iter_child_topics ct)))) ∧
       (truthyLines (render_canvas_table (get_topic_text ct) (iter_child_topics ct)) =
          false →
        looks_like_board_layout (iter_child_topics ct) = false →
        extract_markdown_lines root =
          (if walk_topic ct 1 = [] then .error .emptyDocument
           else .ok (walk_topic ct 1))))) := by
  refine ⟨?_, ?_, ?_, ?_⟩
  · intro t ht
    unfold findCentralTopic
    rw [ht]
  · intro h
    unfold findCentralTopic
    rw [h]
  · intro h
    unfold extract_markdown_lines
    rw [h]
  · intro ct hct
    have hunf : extract_markdown_lines root =
        (let mdLines :=
          if truthyLines (render_canvas_table (get_topic_text ct) (iter_child_topics ct))
          then (render_canvas_table (get_topic_text ct) (iter_child_topics ct)).getD []
          else if looks_like_board_layout (iter_child_topics ct) then
            render_board_sections (get_topic_text ct) (iter_child_topics ct)
          else walk_topic ct 1
         if mdLines = [] then .error .emptyDocument else .ok mdLines) := by
      unfold extract_markdown_lines
      rw [hct]
    refine ⟨?_, ?_, ?_⟩
    · intro ls hls hlsne
      rw [hunf]
      have htr : truthyLines
          (render_canvas_table (get_topic_text ct) (iter_child_topics ct)) = true := by
        rw [hls]
        unfold truthyLines
        simpa using hlsne
      rw [htr]
      simp only [if_true, hls, Option.getD_some]
      rw [if_neg hlsne]
    · intro htl hb
      rw [hunf]
      rw [htl, hb]
      simp only [Bool.false_eq_true, if_false, if_true]
    · intro htl hb
      rw [hunf]
      rw [htl, hb]
      simp only [Bool.false_eq_true, if_false]

/-- Witness for C1 at a tree with no topic at all: the conversion fails
with `noTopicsFound`. -/
theorem extract_markdown_lines_priority_witness :
    extract_markdown_lines exEmptyRoot = .error .noTopicsFound :=
  (extract_markdown_lines_priority exEmptyRoot).2.2.1 (by rfl)
